import Mathlib

/-!
# Verification of the keystone `scan` command

Shallow embedding of `cli/cmd/scan.go` (the `scan` cobra command and its
helper `extractNpmPackages`) and proofs about it.

Modelling conventions:
* Go strings are modelled as `List Char` (a Go string holding valid UTF-8,
  viewed as its sequence of runes).  The byte-level operations `len(s)` and
  `s[:110]` used for summary truncation are modelled explicitly on the
  UTF-8 byte sequence (`strBytes`), since Go indexes strings by byte.
* A value decoded by `encoding/json` into `any` is modelled by `JVal`
  (objects become association lists; Go maps have unique keys, which is a
  special case).
* The network (`http.Post` against the OSV endpoint) together with
  `io.ReadAll`/`json.Unmarshal` of the response body is modelled by an
  oracle `OsvQuery → QueryOutcome`.
* Console output is modelled as a list of `Line` values, one per `fmt`
  call, carrying exactly the data interpolated into the format string.
-/

set_option autoImplicit false

namespace Keystone

/-- A JSON value as decoded by Go `encoding/json` into `any`:
objects decode to `map[string]any` (here an association list),
arrays to `[]any`, strings to `string`, numbers to `float64`
(the numeric payload is irrelevant to the scanner and is modelled by `Rat`),
booleans to `bool` and `null` to `nil`. -/
inductive JVal where
  | jnull : JVal
  | jbool : Bool → JVal
  | jnum : Rat → JVal
  | jstr : List Char → JVal
  | jarr : List JVal → JVal
  | jobj : List (List Char × JVal) → JVal

/-- Go map indexing `m[k]` with the `, ok` idiom on a `map[string]any`:
`some v` when the key is present, `none` when absent. -/
def goLookup (m : List (List Char × JVal)) (k : List Char) : Option JVal :=
  match m with
  | [] => none
  | (k2, v) :: rest => if k2 = k then some v else goLookup rest k

/-- Models `strings.HasPrefix s p`. -/
def goStartsWith (s p : List Char) : Bool :=
  p.isPrefixOf s

/-- Models `strings.TrimPrefix s p`: drop `p` from the front of `s` when it
is a prefix, otherwise return `s` unchanged. -/
def goTrimPre (s p : List Char) : List Char :=
  if p.isPrefixOf s then s.drop p.length else s

/-- Models `strings.Count s sep` for a one-character separator: the number
of occurrences of the character. -/
def goCount : List Char → Char → Nat
  | [], _ => 0
  | a :: t, c => (if a == c then 1 else 0) + goCount t c

/-- Models `strings.Contains s sep` for a one-character separator. -/
def goHasChar (s : List Char) (c : Char) : Bool :=
  s.any (fun a => a == c)

/-- Models `strings.Index s sep` for a one-character separator, as an
`Option` (`none` for Go's `-1`).  The returned position counts runes; Go
counts bytes, but the only use below is `name[:i]` with `i` the position of
the first `/`, and taking the first `i` runes yields exactly the same
string as taking the first `i'` bytes at the corresponding byte position,
so the composition is faithful. -/
def goIndex : List Char → Char → Option Nat
  | [], _ => none
  | a :: t, c => if a == c then some 0 else (goIndex t c).map (· + 1)

/-- Models `strings.SplitN s sep 2` for a one-character separator: if `sep`
occurs, the part before the first occurrence followed by the unsplit
remainder after it; otherwise the one-element list `[s]`. -/
def goSplitN2 (s : List Char) (c : Char) : List (List Char) :=
  if goHasChar s c then
    [s.takeWhile (fun a => a != c), (s.dropWhile (fun a => a != c)).drop 1]
  else [s]

/-- The characters of the Go string literal `"node_modules/"`. -/
def nmKey : List Char := "node_modules/".toList

/-- The characters of the Go string literal `"packages"`. -/
def packagesKey : List Char := "packages".toList

/-- The characters of the Go string literal `"version"`. -/
def versionKey : List Char := "version".toList

/-- The `dep` struct of `scan.go`. -/
structure Dep where
  name : List Char
  version : List Char
deriving DecidableEq

/-- The statement `ver, _ := entry["version"].(string)` of `scan.go`:
the `"version"` field of a package record when present and a string,
otherwise the zero value `""`. -/
def verOf (entry : List (List Char × JVal)) : List Char :=
  match goLookup entry versionKey with
  | some (JVal.jstr s) => s
  | _ => []

/-- The name computation of the loop body of `extractNpmPackages`:
strip a leading `"node_modules/"`; if the result starts with `@` and has at
least one `/`, split once at the first `/` and rejoin with `/`
(the code's scoped-package branch); otherwise, if a `/` occurs and the name
does not start with `@`, keep only the part before the first `/`. -/
def depName (k : List Char) : List Char :=
  let name := goTrimPre k nmKey
  if goStartsWith name ['@'] = true ∧ goCount name '/' ≥ 1 then
    let parts := goSplitN2 name '/'
    if parts.length = 2 then (parts.getD 0 []) ++ '/' :: (parts.getD 1 []) else name
  else
    match goIndex name '/' with
    | some i => if goStartsWith name ['@'] = false then name.take i else name
    | none => name

/-- The `for k, v := range packages` loop of `extractNpmPackages`:
skip values that are not objects, skip the root entry with key `""`,
otherwise append `{name: depName k, version: ver}`. -/
def extractLoop (packages : List (List Char × JVal)) : List Dep :=
  match packages with
  | [] => []
  | (k, v) :: rest =>
    match v with
    | JVal.jobj entry =>
      let ver := verOf entry
      if k = [] then extractLoop rest
      else { name := depName k, version := ver } :: extractLoop rest
    | _ => extractLoop rest

/-- `extractNpmPackages` of `scan.go`: look up `"packages"`; if absent or
not an object, return the empty list; otherwise run the extraction loop. -/
def extractNpmPackages (lock : List (List Char × JVal)) : List Dep :=
  match goLookup lock packagesKey with
  | none => []
  | some v =>
    match v with
    | JVal.jobj packages => extractLoop packages
    | _ => []

/-- Models Go `unicode.IsSpace`: the Unicode `White_Space` property
(`\t`..`\r`, space, NEL, NBSP, and the higher space code points). -/
def goIsSpace (c : Char) : Bool :=
  let n := c.toNat
  (decide (0x9 ≤ n) && decide (n ≤ 0xD)) || n == 0x20 || n == 0x85 || n == 0xA0 ||
  n == 0x1680 || (decide (0x2000 ≤ n) && decide (n ≤ 0x200A)) ||
  n == 0x2028 || n == 0x2029 || n == 0x202F || n == 0x205F || n == 0x3000

/-- Models `strings.TrimSpace`: drop White_Space runes from both ends. -/
def goTrimSpace (s : List Char) : List Char :=
  ((s.dropWhile goIsSpace).reverse.dropWhile goIsSpace).reverse

/-- Models `strings.Split(s, "\n")[0]`: everything before the first
newline, or all of `s` when it has none. -/
def firstLine (s : List Char) : List Char :=
  s.takeWhile (fun c => c != '\n')

/-- The UTF-8 encoding of one rune, as byte values. -/
def utf8Bytes (c : Char) : List Nat :=
  let n := c.toNat
  if n < 0x80 then [n]
  else if n < 0x800 then [0xC0 + n / 0x40, 0x80 + n % 0x40]
  else if n < 0x10000 then
    [0xE0 + n / 0x1000, 0x80 + (n / 0x40) % 0x40, 0x80 + n % 0x40]
  else
    [0xF0 + n / 0x40000, 0x80 + (n / 0x1000) % 0x40, 0x80 + (n / 0x40) % 0x40,
     0x80 + n % 0x40]

/-- The bytes of a Go string holding the given runes.  Go's `len` on a
string is `(strBytes s).length` and `s[:i]` is `(strBytes s).take i`. -/
def strBytes (s : List Char) : List Nat :=
  (s.map utf8Bytes).flatten

/-- The summary formatting of the vulnerability print loop of `scanCmd`:
`s := strings.Split(strings.TrimSpace(v.Summary), "\n")[0]`, then
`if len(s) > 110 { s = s[:110] + "…" }`.  Go `len` and slicing act on
bytes, so the result is modelled as the printed byte sequence. -/
def displaySummary (summary : List Char) : List Nat :=
  let s := firstLine (goTrimSpace summary)
  let b := strBytes s
  if b.length > 110 then b.take 110 ++ strBytes ['…'] else b

/-- The summary formatting as the spec's words describe it, counting
characters rather than bytes: the first line of the trimmed text, truncated
to 110 characters plus an ellipsis when longer, untouched otherwise.
Stated only to be compared against `displaySummary`. -/
def displaySummarySpecChars (summary : List Char) : List Char :=
  let s := firstLine (goTrimSpace summary)
  if s.length > 110 then s.take 110 ++ ['…'] else s

/-- One vulnerability of an `osvResp`: the two fields the tool consumes. -/
structure Vuln where
  id : List Char
  summary : List Char
deriving DecidableEq

/-- The `osvQuery` struct marshalled as the POST body of one OSV call. -/
structure OsvQuery where
  ecosystem : List Char
  name : List Char
  version : List Char
deriving DecidableEq

/-- The observable outcome of one `http.Post` to the OSV endpoint together
with reading and unmarshalling its body: `transportErr` when `http.Post`
returns an error, `badBody` when `json.Unmarshal` of the body fails, and
`vulns` for a response decoding to an `osvResp`. -/
inductive QueryOutcome where
  | transportErr : List Char → QueryOutcome
  | badBody : List Char → QueryOutcome
  | vulns : List Vuln → QueryOutcome

/-- One console line of `scanCmd`, carrying the data interpolated into the
corresponding format string. -/
inductive Line where
  | errReading : List Char → Line
  | invalidJsonMsg : Line
  | noDepsWarning : Line
  | scanningHeader : Nat → Line
  | osvQueryFailed : List Char → List Char → List Char → Line
  | badOsvResponse : List Char → List Char → List Char → Line
  | vulnFound : List Char → List Char → Nat → Line
  | vulnDetail : List Char → List Nat → Line
  | cleanScan : Line
deriving DecidableEq

/-- The observable effects of the per-dependency loop of `scanCmd`:
the queries POSTed so far, the lines printed so far, and the running
`vulnCount`. -/
structure ScanState where
  queries : List OsvQuery
  lines : List Line
  vulnCount : Nat
deriving DecidableEq

/-- The `osvQuery` built for a dependency: ecosystem `"npm"`, the
dependency's name and version. -/
def mkQuery (d : Dep) : OsvQuery :=
  { ecosystem := "npm".toList, name := d.name, version := d.version }

/-- The effects of one iteration of the dependency loop of `scanCmd`,
starting from no output: skip silently when name or version is empty;
otherwise POST one query and, by outcome, print the query-failure line,
the bad-response line, or — when vulnerabilities came back — the
per-package header plus one detail line per vulnerability, adding
`len(or.Vulns)` to `vulnCount`. -/
def stepDep (oracle : OsvQuery → QueryOutcome) (d : Dep) : ScanState :=
  if d.name == [] || d.version == [] then ⟨[], [], 0⟩
  else
    match oracle (mkQuery d) with
    | QueryOutcome.transportErr e =>
      ⟨[mkQuery d], [Line.osvQueryFailed d.name d.version e], 0⟩
    | QueryOutcome.badBody e =>
      ⟨[mkQuery d], [Line.badOsvResponse d.name d.version e], 0⟩
    | QueryOutcome.vulns vs =>
      if vs.length > 0 then
        ⟨[mkQuery d],
         Line.vulnFound d.name d.version vs.length
           :: vs.map (fun v => Line.vulnDetail v.id (displaySummary v.summary)),
         vs.length⟩
      else ⟨[mkQuery d], [], 0⟩

/-- Sequencing of loop-iteration effects: later queries and lines are
appended, vulnerability counts add. -/
def stAppend (a b : ScanState) : ScanState :=
  ⟨a.queries ++ b.queries, a.lines ++ b.lines, a.vulnCount + b.vulnCount⟩

/-- The `for _, d := range deps` loop of `scanCmd`: accumulate the effects
of each iteration in order. -/
def scanDeps (oracle : OsvQuery → QueryOutcome) (deps : List Dep) : ScanState :=
  deps.foldl (fun st d => stAppend st (stepDep oracle d)) ⟨[], [], 0⟩

/-- The lockfile contents as seen by `json.Unmarshal`: either not valid
JSON, or valid JSON decoding to a `JVal`. -/
inductive DocInput where
  | invalidJson : DocInput
  | validJson : JVal → DocInput

/-- The outcome of `os.ReadFile` on the lockfile path. -/
inductive ReadResult where
  | readErr : List Char → ReadResult
  | readOk : DocInput → ReadResult

/-- Models `json.Unmarshal(data, &lock)` for `lock map[string]any`
(Go `encoding/json` semantics): an error when the data is not valid JSON
or its top-level value is neither an object nor `null`; JSON `null` leaves
`lock` as the `nil` map (no keys). -/
def unmarshalMap : DocInput → Option (List (List Char × JVal))
  | DocInput.invalidJson => none
  | DocInput.validJson (JVal.jobj m) => some m
  | DocInput.validJson JVal.jnull => some []
  | DocInput.validJson _ => none

/-- The body of the `scan` command's `Run`, returning the process exit
code and the printed lines: exit 1 after the read-error or unmarshal-error
message (the two `os.Exit(1)` calls of `scan.go`); otherwise the
no-dependencies warning or the scan output, then exit 0.
Modelled from the spec: the exit code 0 on a normal return of `Run` comes
from the root command and `main` (not under `src/`), which per the spec
exit 0 whenever the lockfile was read and unmarshalled. -/
def runScan (r : ReadResult) (oracle : OsvQuery → QueryOutcome) :
    Nat × List Line :=
  match r with
  | ReadResult.readErr e => (1, [Line.errReading e])
  | ReadResult.readOk doc =>
    match unmarshalMap doc with
    | none => (1, [Line.invalidJsonMsg])
    | some lock =>
      let deps := extractNpmPackages lock
      if deps.length = 0 then (0, [Line.noDepsWarning])
      else
        let st := scanDeps oracle deps
        (0, Line.scanningHeader deps.length
              :: st.lines ++ (if st.vulnCount = 0 then [Line.cleanScan] else []))

/-! ## Auxiliary lemmas on the Go string helpers -/

lemma isPrefixOf_append_self (p t : List Char) : p.isPrefixOf (p ++ t) = true := by
  simp [ List.isPrefixOf_iff_prefix]

lemma drop_length_append (p t : List Char) : (p ++ t).drop p.length = t := by
  induction p with
  | nil => rfl
  | cons a p ih => simpa using ih

lemma take_length_append (p t : List Char) : (p ++ t).take p.length = p := by
  induction p with
  | nil => rfl
  | cons a p ih => simpa using ih

lemma goTrimPre_append (p t : List Char) : goTrimPre (p ++ t) p = t := by
  simp [goTrimPre, isPrefixOf_append_self, drop_length_append]

lemma goTrimPre_of_no_pre (k p : List Char) (h : p.isPrefixOf k = false) :
    goTrimPre k p = k := by
  simp [goTrimPre, h]

lemma goCount_pos_iff (s : List Char) (c : Char) :
    1 ≤ goCount s c ↔ goHasChar s c = true := by
  induction s with
  | nil => simp [goCount, goHasChar]
  | cons a t ih =>
    cases hac : a == c <;>
      simp [goCount, goHasChar, hac, List.any_cons] <;>
      simpa [goHasChar] using ih

lemma goIndex_eq_none_iff (s : List Char) (c : Char) :
    goIndex s c = none ↔ goHasChar s c = false := by
  induction s with
  | nil => simp [goIndex, goHasChar]
  | cons a t ih =>
    cases hac : a == c <;> simp [goIndex, goHasChar, hac, List.any_cons] <;>
      simpa [goHasChar] using ih

lemma goIndex_take (s : List Char) (c : Char) :
    ∀ i, goIndex s c = some i → s.take i = s.takeWhile (fun a => a != c) := by
  induction s with
  | nil => intro i h; cases h
  | cons a t ih =>
    intro i h
    cases hac : a == c with
    | true =>
      have hceq : a = c := by simpa using hac
      rw [goIndex, if_pos hac] at h
      cases h
      simp [List.takeWhile_cons, hceq]
    | false =>
      have hne : ¬a = c := by simpa using hac
      rw [goIndex, if_neg (by simp [hac])] at h
      rcases Option.map_eq_some'.mp h with ⟨j, hj, rfl⟩
      simp [List.takeWhile_cons, hne, List.take_succ_cons, ih j hj]

lemma splitN2_join (s : List Char) (c : Char) (h : goHasChar s c = true) :
    s.takeWhile (fun a => a != c) ++ c :: (s.dropWhile (fun a => a != c)).drop 1
      = s := by
  induction s with
  | nil => simp [goHasChar] at h
  | cons a t ih =>
    cases hac : a == c with
    | true =>
      have hceq : a = c := by simpa using hac
      subst hceq
      simp [List.takeWhile_cons, List.dropWhile_cons]
    | false =>
      have hne : ¬a = c := by simpa using hac
      have ht : goHasChar t c = true := by
        simpa [goHasChar, List.any_cons, hac] using h
      have ht' := ih ht
      rw [List.drop_one] at ht'
      simp [List.takeWhile_cons, List.dropWhile_cons, hne, ht']

lemma takeWhile_ne_append (a b : List Char) (c : Char)
    (h : goHasChar a c = false) :
    (a ++ c :: b).takeWhile (fun x => x != c) = a := by
  induction a with
  | nil => simp [List.takeWhile_cons]
  | cons x t ih =>
    rw [goHasChar, List.any_cons, Bool.or_eq_false_iff] at h
    obtain ⟨hx, ht⟩ := h
    have hne : ¬x = c := by simpa using hx
    simp [List.takeWhile_cons, hne, ih ht]

lemma goHasChar_append_cons (a b : List Char) (c : Char) :
    goHasChar (a ++ c :: b) c = true := by
  simp [goHasChar, List.any_append, List.any_cons]

lemma goStartsWith_append_of_ne_nil (o t : List Char) (p : Char) (ho : o ≠ []) :
    goStartsWith (o ++ t) [p] = goStartsWith o [p] := by
  cases o with
  | nil => exact absurd rfl ho
  | cons x r => simp [goStartsWith, List.isPrefixOf]

/-- Closed-form description of the name computation: the trimmed key is
kept whole whenever it is scoped (starts with `@`) or has no `/`;
otherwise it is cut at the first `/`. -/
lemma depName_char (k : List Char) :
    depName k =
      if goStartsWith (goTrimPre k nmKey) ['@'] = true
          ∨ goHasChar (goTrimPre k nmKey) '/' = false
      then goTrimPre k nmKey
      else (goTrimPre k nmKey).takeWhile (fun a => a != '/') := by
  simp only [depName]
  generalize goTrimPre k nmKey = name
  by_cases h1 : goStartsWith name ['@'] = true
  · by_cases h2 : 1 ≤ goCount name '/'
    · have hany : goHasChar name '/' = true := (goCount_pos_iff name '/').mp h2
      rw [if_pos ⟨h1, h2⟩, if_pos (Or.inl h1)]
      simp only [goSplitN2, hany, if_pos, List.length_cons, List.length_nil,
        List.getD, List.getElem?_cons_zero, Option.getD_some]
      simpa using splitN2_join name '/' hany
    · have hany : goHasChar name '/' = false := by
        cases hh : goHasChar name '/' with
        | true => exact absurd ((goCount_pos_iff name '/').mpr hh) h2
        | false => rfl
      have hidx : goIndex name '/' = none := (goIndex_eq_none_iff name '/').mpr hany
      rw [if_neg (fun hand => h2 hand.2), if_pos (Or.inl h1), hidx]
  · have h1f : goStartsWith name ['@'] = false := by
      cases hh : goStartsWith name ['@'] with
      | true => exact absurd hh h1
      | false => rfl
    rw [if_neg (fun hand => h1 hand.1)]
    cases hI : goIndex name '/' with
    | none =>
      have hany : goHasChar name '/' = false := (goIndex_eq_none_iff name '/').mp hI
      rw [if_pos (Or.inr hany)]
    | some i =>
      have hany : goHasChar name '/' = true := by
        cases hh : goHasChar name '/' with
        | true => rfl
        | false => rw [(goIndex_eq_none_iff name '/').mpr hh] at hI; cases hI
      rw [if_neg (by simp [h1f, hany])]
      show (if goStartsWith name ['@'] = false then name.take i else name)
          = name.takeWhile (fun a => a != '/')
      rw [if_pos h1f]
      exact goIndex_take name '/' i hI

/-! ## Lemmas about the extraction loop -/

lemma mem_extractLoop (packages : List (List Char × JVal)) (k : List Char)
    (entry : List (List Char × JVal))
    (hmem : (k, JVal.jobj entry) ∈ packages) (hk : k ≠ []) :
    Dep.mk (depName k) (verOf entry) ∈ extractLoop packages := by
  induction packages with
  | nil => cases hmem
  | cons hd tl ih =>
    cases hmem with
    | head =>
      rw [extractLoop, if_neg hk]
      exact List.mem_cons_self _ _
    | tail _ h2 =>
      obtain ⟨k2, v2⟩ := hd
      have htl := ih h2
      cases v2 with
      | jobj e2 =>
        by_cases hk2 : k2 = []
        · rw [extractLoop, if_pos hk2]; exact htl
        · rw [extractLoop, if_neg hk2]; exact List.mem_cons_of_mem _ htl
      | jnull => exact htl
      | jbool b => exact htl
      | jnum q => exact htl
      | jstr s => exact htl
      | jarr xs => exact htl

lemma extractLoop_filter_root (packages : List (List Char × JVal)) :
    extractLoop packages
      = extractLoop (packages.filter (fun e => e.1 != [])) := by
  induction packages with
  | nil => rfl
  | cons hd tl ih =>
    obtain ⟨k, v⟩ := hd
    by_cases hk : k = []
    · subst hk
      have hfil : (([], v) :: tl).filter (fun e => e.1 != []) =
          tl.filter (fun e => e.1 != []) := by simp [List.filter_cons]
      rw [hfil]
      cases v with
      | jobj e2 => rw [extractLoop, if_pos rfl]; exact ih
      | jnull => exact ih
      | jbool b => exact ih
      | jnum q => exact ih
      | jstr s => exact ih
      | jarr xs => exact ih
    · have hfil : ((k, v) :: tl).filter (fun e => e.1 != []) =
          (k, v) :: tl.filter (fun e => e.1 != []) := by
        simp [List.filter_cons, hk]
      rw [hfil]
      cases v with
      | jobj e2 =>
        rw [extractLoop, if_neg hk]
        conv_rhs => rw [extractLoop, if_neg hk]
        rw [ih]
      | jnull => exact ih
      | jbool b => exact ih
      | jnum q => exact ih
      | jstr s => exact ih
      | jarr xs => exact ih

/-! ## Claim theorems: the lockfile extractor -/

/-- C1, counterexample: the claim predicts that key
`node_modules/@scope/pkg/node_modules/other` yields name `@scope/pkg`.
The scoped branch splits once at the first `/` and rejoins the two parts,
which is the identity, so the extracted name is the whole trimmed key
`@scope/pkg/node_modules/other` — not `@scope/pkg`. -/
theorem scoped_nested_key_not_truncated :
    extractNpmPackages [(packagesKey, JVal.jobj
        [("node_modules/@scope/pkg/node_modules/other".toList,
          JVal.jobj [(versionKey, JVal.jstr "1.0.0".toList)])])]
      = [{ name := "@scope/pkg/node_modules/other".toList,
           version := "1.0.0".toList }]
    ∧ "@scope/pkg/node_modules/other".toList ≠ "@scope/pkg".toList := by
  decide

/-- C1, amended: for every packages-map entry whose key is non-root and
whose name after removing a leading `node_modules/` starts with `@` and
contains at least one `/`, extraction keeps that name unchanged in full:
the scoped branch discards nothing, so further nested path segments are
retained, and the entry appears with exactly the trimmed key as name. -/
theorem scoped_name_kept_unchanged (lock pkgs : List (List Char × JVal))
    (k : List Char) (entry : List (List Char × JVal))
    (hlock : goLookup lock packagesKey = some (JVal.jobj pkgs))
    (hmem : (k, JVal.jobj entry) ∈ pkgs) (hk : k ≠ [])
    (hat : goStartsWith (goTrimPre k nmKey) ['@'] = true)
    (hslash : 1 ≤ goCount (goTrimPre k nmKey) '/') :
    depName k = goTrimPre k nmKey
    ∧ Dep.mk (goTrimPre k nmKey) (verOf entry) ∈ extractNpmPackages lock := by
  have hd : depName k = goTrimPre k nmKey := by
    rw [depName_char]; exact if_pos (Or.inl hat)
  refine ⟨hd, ?_⟩
  have hmem2 := mem_extractLoop pkgs k entry hmem hk
  rw [hd] at hmem2
  simp only [extractNpmPackages, hlock]
  exact hmem2

/-- Witness for the amended C1 at the concrete nested scoped key. -/
theorem scoped_name_kept_unchanged_witness :
    Dep.mk "@scope/pkg/node_modules/other".toList "1.0.0".toList
      ∈ extractNpmPackages [(packagesKey, JVal.jobj
          [("node_modules/@scope/pkg/node_modules/other".toList,
            JVal.jobj [(versionKey, JVal.jstr "1.0.0".toList)])])] :=
  (scoped_name_kept_unchanged
    [(packagesKey, JVal.jobj
        [("node_modules/@scope/pkg/node_modules/other".toList,
          JVal.jobj [(versionKey, JVal.jstr "1.0.0".toList)])])]
    [("node_modules/@scope/pkg/node_modules/other".toList,
      JVal.jobj [(versionKey, JVal.jstr "1.0.0".toList)])]
    "node_modules/@scope/pkg/node_modules/other".toList
    [(versionKey, JVal.jstr "1.0.0".toList)]
    rfl (List.Mem.head _) (by decide) (by decide) (by decide)).2

/-- C2: a lockfile document with no `packages` key, or whose `packages`
value is not an object, extracts to the empty list (no failure). -/
theorem extract_empty_of_no_packages (lock : List (List Char × JVal))
    (h : ∀ pkgs, goLookup lock packagesKey ≠ some (JVal.jobj pkgs)) :
    extractNpmPackages lock = [] := by
  unfold extractNpmPackages
  cases hl : goLookup lock packagesKey with
  | none => rfl
  | some v =>
    cases v with
    | jobj pkgs => exact absurd hl (h pkgs)
    | jnull => rfl
    | jbool b => rfl
    | jnum q => rfl
    | jstr s => rfl
    | jarr xs => rfl

/-- Witness for C2 at a document whose `packages` value is a string. -/
theorem extract_empty_of_no_packages_witness :
    extractNpmPackages [(packagesKey, JVal.jstr "not-a-map".toList)] = [] :=
  extract_empty_of_no_packages _ (fun pkgs h => by simp [goLookup] at h)

/-- C3: a nested unscoped key `node_modules/<outer>/node_modules/<inner>`
extracts to an entry named by the first segment `<outer>` and carrying the
inner record's version. -/
theorem nested_unscoped_key_flattened (lock pkgs : List (List Char × JVal))
    (outer inner : List Char) (entry : List (List Char × JVal))
    (hlock : goLookup lock packagesKey = some (JVal.jobj pkgs))
    (hmem : (nmKey ++ (outer ++ '/' :: (nmKey ++ inner)), JVal.jobj entry) ∈ pkgs)
    (ho1 : outer ≠ []) (ho2 : goHasChar outer '/' = false)
    (ho3 : goStartsWith outer ['@'] = false) :
    Dep.mk outer (verOf entry) ∈ extractNpmPackages lock := by
  have hnm : nmKey ≠ [] := by decide
  have hk : nmKey ++ (outer ++ '/' :: (nmKey ++ inner)) ≠ [] := by
    intro hc; exact hnm (List.append_eq_nil.mp hc).1
  have htrim : goTrimPre (nmKey ++ (outer ++ '/' :: (nmKey ++ inner))) nmKey
      = outer ++ '/' :: (nmKey ++ inner) := goTrimPre_append _ _
  have hc1 : goStartsWith (outer ++ '/' :: (nmKey ++ inner)) ['@'] = false := by
    rw [goStartsWith_append_of_ne_nil outer _ '@' ho1]; exact ho3
  have hc2 : goHasChar (outer ++ '/' :: (nmKey ++ inner)) '/' = true :=
    goHasChar_append_cons _ _ _
  have hname : depName (nmKey ++ (outer ++ '/' :: (nmKey ++ inner))) = outer := by
    rw [depName_char, htrim, if_neg (by simp [hc1, hc2])]
    exact takeWhile_ne_append outer _ '/' ho2
  simp only [extractNpmPackages, hlock]
  have hmem2 := mem_extractLoop pkgs _ entry hmem hk
  rwa [hname] at hmem2

/-- Witness for C3 at the concrete key `node_modules/foo/node_modules/bar`. -/
theorem nested_unscoped_key_flattened_witness :
    Dep.mk "foo".toList "2.0.0".toList
      ∈ extractNpmPackages [(packagesKey, JVal.jobj
          [(nmKey ++ ("foo".toList ++ '/' :: (nmKey ++ "bar".toList)),
            JVal.jobj [(versionKey, JVal.jstr "2.0.0".toList)])])] :=
  nested_unscoped_key_flattened
    [(packagesKey, JVal.jobj
        [(nmKey ++ ("foo".toList ++ '/' :: (nmKey ++ "bar".toList)),
          JVal.jobj [(versionKey, JVal.jstr "2.0.0".toList)])])]
    [(nmKey ++ ("foo".toList ++ '/' :: (nmKey ++ "bar".toList)),
      JVal.jobj [(versionKey, JVal.jstr "2.0.0".toList)])]
    "foo".toList "bar".toList
    [(versionKey, JVal.jstr "2.0.0".toList)]
    rfl (List.Mem.head _) (by decide) (by decide) (by decide)

/-- C8: an entry whose record has no `version` field, or whose `version`
value is not a string, is still extracted, with the empty version — the
extractor filters nothing on versions. -/
theorem missing_version_entry_kept (lock pkgs : List (List Char × JVal))
    (k : List Char) (entry : List (List Char × JVal))
    (hlock : goLookup lock packagesKey = some (JVal.jobj pkgs))
    (hmem : (k, JVal.jobj entry) ∈ pkgs) (hk : k ≠ [])
    (hver : ∀ s, goLookup entry versionKey ≠ some (JVal.jstr s)) :
    verOf entry = [] ∧ Dep.mk (depName k) [] ∈ extractNpmPackages lock := by
  have hv : verOf entry = [] := by
    unfold verOf
    cases hl : goLookup entry versionKey with
    | none => rfl
    | some v =>
      cases v with
      | jstr s => exact absurd hl (hver s)
      | jnull => rfl
      | jbool b => rfl
      | jnum q => rfl
      | jarr xs => rfl
      | jobj m => rfl
  refine ⟨hv, ?_⟩
  simp only [extractNpmPackages, hlock]
  have hmem2 := mem_extractLoop pkgs k entry hmem hk
  rwa [hv] at hmem2

/-- Witness for C8 at a record with no fields at all. -/
theorem missing_version_entry_kept_witness :
    Dep.mk "leftpad".toList []
      ∈ extractNpmPackages
          [(packagesKey, JVal.jobj [("node_modules/leftpad".toList, JVal.jobj [])])] :=
  (missing_version_entry_kept
    [(packagesKey, JVal.jobj [("node_modules/leftpad".toList, JVal.jobj [])])]
    [("node_modules/leftpad".toList, JVal.jobj [])]
    "node_modules/leftpad".toList []
    rfl (List.Mem.head _) (by decide)
    (fun s h => by simp [goLookup] at h)).2

/-- C9: the extracted list never contains an entry derived from the root
key `""` — extraction is unchanged when all root-keyed entries are removed
from the packages map beforehand. -/
theorem root_entry_never_extracted (lock pkgs : List (List Char × JVal))
    (hlock : goLookup lock packagesKey = some (JVal.jobj pkgs)) :
    extractNpmPackages lock
      = extractLoop (pkgs.filter (fun e => e.1 != [])) := by
  simp only [extractNpmPackages, hlock]
  exact extractLoop_filter_root pkgs

/-- Witness for C9 at a map holding a root entry and one dependency. -/
theorem root_entry_never_extracted_witness :
    extractNpmPackages
        [(packagesKey, JVal.jobj
          [([], JVal.jobj [(versionKey, JVal.jstr "9.9.9".toList)]),
           ("node_modules/lodash".toList,
            JVal.jobj [(versionKey, JVal.jstr "4.17.21".toList)])])]
      = extractLoop
          (([([], JVal.jobj [(versionKey, JVal.jstr "9.9.9".toList)]),
             ("node_modules/lodash".toList,
              JVal.jobj [(versionKey, JVal.jstr "4.17.21".toList)])] :
            List (List Char × JVal)).filter (fun e => e.1 != [])) :=
  root_entry_never_extracted _ _ rfl

/-- C10: a non-empty key without the `node_modules/` path segment is still
extracted, not skipped; its name is the key itself, cut at the first `/`
exactly when the key contains a `/` and does not start with `@`. -/
theorem plain_key_still_extracted (lock pkgs : List (List Char × JVal))
    (k : List Char) (entry : List (List Char × JVal))
    (hlock : goLookup lock packagesKey = some (JVal.jobj pkgs))
    (hmem : (k, JVal.jobj entry) ∈ pkgs) (hk : k ≠ [])
    (hpre : goStartsWith k nmKey = false) :
    Dep.mk (if goStartsWith k ['@'] = true ∨ goHasChar k '/' = false
            then k else k.takeWhile (fun a => a != '/'))
        (verOf entry)
      ∈ extractNpmPackages lock := by
  have htrim : goTrimPre k nmKey = k := goTrimPre_of_no_pre k nmKey hpre
  simp only [extractNpmPackages, hlock]
  have hmem2 := mem_extractLoop pkgs k entry hmem hk
  rwa [depName_char, htrim] at hmem2

/-- Witness for C10 at the concrete key `foo/bar`. -/
theorem plain_key_still_extracted_witness :
    Dep.mk "foo".toList "1.0.0".toList
      ∈ extractNpmPackages
          [(packagesKey, JVal.jobj
            [("foo/bar".toList, JVal.jobj [(versionKey, JVal.jstr "1.0.0".toList)])])] :=
  plain_key_still_extracted
    [(packagesKey, JVal.jobj
        [("foo/bar".toList, JVal.jobj [(versionKey, JVal.jstr "1.0.0".toList)])])]
    [("foo/bar".toList, JVal.jobj [(versionKey, JVal.jstr "1.0.0".toList)])]
    "foo/bar".toList [(versionKey, JVal.jstr "1.0.0".toList)]
    rfl (List.Mem.head _) (by decide) (by decide)

/-! ## Lemmas about the scan loop -/

lemma stAppend_assoc (a b c : ScanState) :
    stAppend (stAppend a b) c = stAppend a (stAppend b c) := by
  simp [stAppend, List.append_assoc, Nat.add_assoc]

lemma stAppend_empty_left (a : ScanState) : stAppend ⟨[], [], 0⟩ a = a := by
  cases a; simp [stAppend]

lemma stAppend_empty_right (a : ScanState) : stAppend a ⟨[], [], 0⟩ = a := by
  cases a; simp [stAppend]

lemma scanDeps_foldl_from (o : OsvQuery → QueryOutcome) (ds : List Dep) :
    ∀ st, ds.foldl (fun a d => stAppend a (stepDep o d)) st
      = stAppend st (scanDeps o ds) := by
  induction ds with
  | nil => intro st; simp [scanDeps, stAppend_empty_right]
  | cons d ds ih =>
    intro st
    show ds.foldl _ (stAppend st (stepDep o d)) = stAppend st (scanDeps o (d :: ds))
    rw [ih (stAppend st (stepDep o d))]
    have hcons : scanDeps o (d :: ds) = stAppend (stepDep o d) (scanDeps o ds) := by
      show ds.foldl _ (stAppend ⟨[], [], 0⟩ (stepDep o d)) = _
      rw [stAppend_empty_left, ih (stepDep o d)]
    rw [hcons, stAppend_assoc]

lemma scanDeps_cons (o : OsvQuery → QueryOutcome) (d : Dep) (ds : List Dep) :
    scanDeps o (d :: ds) = stAppend (stepDep o d) (scanDeps o ds) := by
  show ds.foldl _ (stAppend ⟨[], [], 0⟩ (stepDep o d)) = _
  rw [stAppend_empty_left, scanDeps_foldl_from o ds (stepDep o d)]

lemma scanDeps_lines (o : OsvQuery → QueryOutcome) (ds : List Dep) :
    (scanDeps o ds).lines = ds.flatMap (fun d => (stepDep o d).lines) := by
  induction ds with
  | nil => rfl
  | cons d ds ih => rw [scanDeps_cons]; simp [stAppend, ih]

lemma stepDep_trivial (o : OsvQuery → QueryOutcome) (d : Dep)
    (h : (d.name == [] || d.version == []) = true) :
    stepDep o d = ⟨[], [], 0⟩ := by
  rw [stepDep, if_pos h]

lemma stepDep_queries (o : OsvQuery → QueryOutcome) (d : Dep)
    (h : (d.name == [] || d.version == []) = false) :
    (stepDep o d).queries = [mkQuery d] := by
  rw [stepDep, if_neg (by rw [h]; exact Bool.false_ne_true)]
  cases ho : o (mkQuery d) with
  | transportErr e => rfl
  | badBody e => rfl
  | vulns vs =>
    by_cases hv : vs.length > 0
    · simp [hv]
    · simp [hv]

lemma scanDeps_filter_trivial (o : OsvQuery → QueryOutcome) (ds : List Dep) :
    scanDeps o ds
      = scanDeps o (ds.filter (fun d => !(d.name == [] || d.version == []))) := by
  induction ds with
  | nil => rfl
  | cons d ds ih =>
    rw [scanDeps_cons]
    cases h : (d.name == [] || d.version == []) with
    | true =>
      rw [stepDep_trivial o d h, stAppend_empty_left, ih]
      have hfil : (d :: ds).filter (fun d => !(d.name == [] || d.version == []))
          = ds.filter (fun d => !(d.name == [] || d.version == [])) := by
        rw [List.filter_cons, if_neg (by rw [h]; exact Bool.false_ne_true)]
      rw [hfil]
    | false =>
      have hfil : (d :: ds).filter (fun d => !(d.name == [] || d.version == []))
          = d :: ds.filter (fun d => !(d.name == [] || d.version == [])) := by
        rw [List.filter_cons, if_pos (by rw [h]; rfl)]
      rw [hfil, scanDeps_cons, ih]

lemma scanDeps_queries (o : OsvQuery → QueryOutcome) (ds : List Dep) :
    (scanDeps o ds).queries
      = (ds.filter (fun d => !(d.name == [] || d.version == []))).map mkQuery := by
  induction ds with
  | nil => rfl
  | cons d ds ih =>
    rw [scanDeps_cons]
    cases h : (d.name == [] || d.version == []) with
    | true =>
      rw [stepDep_trivial o d h, stAppend_empty_left, ih, List.filter_cons,
        if_neg (by rw [h]; exact Bool.false_ne_true)]
    | false =>
      have hq := stepDep_queries o d h
      show (stepDep o d).queries ++ (scanDeps o ds).queries = _
      rw [hq, ih, List.filter_cons, if_pos (by rw [h]; rfl), List.map_cons,
        List.singleton_append]

/-! ## Claim theorems: summary formatting -/

/-- C4, counterexample: Go's `len` and slicing count bytes, not
characters.  A one-line summary of 56 two-byte characters is 56 ≤ 110
characters long, which the claim says is left untouched; the code sees 112
bytes and truncates.  The output also differs from the character-counting
reading of the spec (`displaySummarySpecChars`). -/
theorem summary_truncation_counterexample :
    (firstLine (goTrimSpace (List.replicate 56 'é'))).length ≤ 110
    ∧ displaySummary (List.replicate 56 'é')
        ≠ strBytes (firstLine (goTrimSpace (List.replicate 56 'é')))
    ∧ displaySummary (List.replicate 56 'é')
        ≠ strBytes (displaySummarySpecChars (List.replicate 56 'é')) := by
  decide

/-- C4, amended: the displayed summary is the first line of the
whitespace-trimmed summary text; when its UTF-8 encoding exceeds 110
bytes it is cut to its first 110 bytes followed by the ellipsis marker,
and otherwise it is left untouched.  (The limit counts bytes, not
characters; a cut may fall inside a multi-byte character.) -/
theorem summary_truncated_at_110_bytes (summary : List Char) :
    ((strBytes (firstLine (goTrimSpace summary))).length ≤ 110 →
      displaySummary summary = strBytes (firstLine (goTrimSpace summary)))
    ∧ ((strBytes (firstLine (goTrimSpace summary))).length > 110 →
      displaySummary summary
        = (strBytes (firstLine (goTrimSpace summary))).take 110
            ++ strBytes ['…']) := by
  constructor
  · intro h
    simp only [displaySummary]
    rw [if_neg (by omega)]
  · intro h
    simp only [displaySummary]
    rw [if_pos h]

/-- Witness for the amended C4 at a short ASCII summary. -/
theorem summary_truncated_at_110_bytes_witness :
    displaySummary "hello world".toList
      = strBytes (firstLine (goTrimSpace "hello world".toList)) :=
  (summary_truncated_at_110_bytes "hello world".toList).1 (by decide)

/-! ## Claim theorems: the scan loop -/

/-- C5: a dependency with empty name or empty version is skipped silently:
the queries POSTed are exactly one per non-trivial dependency, and the
whole scan state (queries, output lines, vulnerability count) is unchanged
when the trivial dependencies are dropped beforehand. -/
theorem trivial_deps_not_queried (o : OsvQuery → QueryOutcome) (deps : List Dep) :
    (scanDeps o deps).queries
      = (deps.filter (fun d => !(d.name == [] || d.version == []))).map mkQuery
    ∧ scanDeps o deps
      = scanDeps o (deps.filter (fun d => !(d.name == [] || d.version == []))) :=
  ⟨scanDeps_queries o deps, scanDeps_filter_trivial o deps⟩

/-- C6: the scan output is the concatenation of each dependency's own
output — every dependency is processed no matter what earlier queries did —
and a transport failure or an undecodable body for a non-trivial dependency
produces exactly one printed failure line for that dependency. -/
theorem query_failures_isolated (o : OsvQuery → QueryOutcome) (deps : List Dep) :
    (scanDeps o deps).lines = deps.flatMap (fun d => (stepDep o d).lines)
    ∧ (∀ d e, (d.name == [] || d.version == []) = false →
        o (mkQuery d) = QueryOutcome.transportErr e →
        (stepDep o d).lines = [Line.osvQueryFailed d.name d.version e])
    ∧ (∀ d e, (d.name == [] || d.version == []) = false →
        o (mkQuery d) = QueryOutcome.badBody e →
        (stepDep o d).lines = [Line.badOsvResponse d.name d.version e]) := by
  refine ⟨scanDeps_lines o deps, ?_, ?_⟩
  · intro d e h ho
    rw [stepDep, if_neg (by rw [h]; exact Bool.false_ne_true), ho]
  · intro d e h ho
    rw [stepDep, if_neg (by rw [h]; exact Bool.false_ne_true), ho]

/-- Witness for C6: a failing query prints the failure line and the next
dependency is still scanned. -/
theorem query_failures_isolated_witness :
    (stepDep (fun _ => QueryOutcome.transportErr "refused".toList)
        (Dep.mk "lodash".toList "4.17.21".toList)).lines
      = [Line.osvQueryFailed "lodash".toList "4.17.21".toList "refused".toList] :=
  (query_failures_isolated (fun _ => QueryOutcome.transportErr "refused".toList)
      []).2.1
    (Dep.mk "lodash".toList "4.17.21".toList) "refused".toList (by decide) rfl

/-! ## Claim theorems: exit codes -/

/-- C7, counterexample: a lockfile whose contents are the valid JSON
document `[]` still exits with code 1, because `json.Unmarshal` into a
`map[string]any` rejects a top-level array — the claim predicted exit
code 0 for every readable, valid-JSON lockfile. -/
theorem valid_json_array_exits_one :
    (runScan (ReadResult.readOk (DocInput.validJson (JVal.jarr [])))
        (fun _ => QueryOutcome.vulns [])).1 = 1 := rfl

/-- C7, amended: the process exits 1 exactly when the lockfile cannot be
read, or its contents are not valid JSON, or they are valid JSON whose
top-level value is neither an object nor `null`; in every other case —
including per-dependency query failures and zero extracted dependencies —
it exits 0. -/
theorem exit_code_one_iff (r : ReadResult) (o : OsvQuery → QueryOutcome) :
    (runScan r o).1 = 1 ↔
      ((∃ e, r = ReadResult.readErr e)
        ∨ r = ReadResult.readOk DocInput.invalidJson
        ∨ ∃ v, r = ReadResult.readOk (DocInput.validJson v)
            ∧ (∀ m, v ≠ JVal.jobj m) ∧ v ≠ JVal.jnull) := by
  cases r with
  | readErr e => exact iff_of_true rfl (Or.inl ⟨e, rfl⟩)
  | readOk doc =>
    cases doc with
    | invalidJson => exact iff_of_true rfl (Or.inr (Or.inl rfl))
    | validJson v =>
      have hexit0 : ∀ (lock : List (List Char × JVal)),
          unmarshalMap (DocInput.validJson v) = some lock →
          (runScan (ReadResult.readOk (DocInput.validJson v)) o).1 = 0 := by
        intro lock hl
        simp only [runScan, hl]
        by_cases hd : (extractNpmPackages lock).length = 0
        · rw [if_pos hd]
        · rw [if_neg hd]
      cases v with
      | jobj m =>
        refine iff_of_false ?_ ?_
        · intro h1
          rw [hexit0 m rfl] at h1
          exact absurd h1 (by decide)
        · rintro (⟨e, he⟩ | he | ⟨v', hv', hm, hn⟩)
          · exact ReadResult.noConfusion he
          · injection he with h2; exact DocInput.noConfusion h2
          · injection hv' with h2; injection h2 with h3
            exact hm m h3.symm
      | jnull =>
        refine iff_of_false ?_ ?_
        · intro h1
          rw [hexit0 [] rfl] at h1
          exact absurd h1 (by decide)
        · rintro (⟨e, he⟩ | he | ⟨v', hv', hm, hn⟩)
          · exact ReadResult.noConfusion he
          · injection he with h2; exact DocInput.noConfusion h2
          · injection hv' with h2; injection h2 with h3
            exact hn h3.symm
      | jbool b =>
        exact iff_of_true rfl (Or.inr (Or.inr ⟨JVal.jbool b, rfl,
          fun m h => JVal.noConfusion h, fun h => JVal.noConfusion h⟩))
      | jnum q =>
        exact iff_of_true rfl (Or.inr (Or.inr ⟨JVal.jnum q, rfl,
          fun m h => JVal.noConfusion h, fun h => JVal.noConfusion h⟩))
      | jstr s =>
        exact iff_of_true rfl (Or.inr (Or.inr ⟨JVal.jstr s, rfl,
          fun m h => JVal.noConfusion h, fun h => JVal.noConfusion h⟩))
      | jarr xs =>
        exact iff_of_true rfl (Or.inr (Or.inr ⟨JVal.jarr xs, rfl,
          fun m h => JVal.noConfusion h, fun h => JVal.noConfusion h⟩))

/-- Witness for the amended C7 at an unreadable lockfile. -/
theorem exit_code_one_iff_witness :
    (runScan (ReadResult.readErr "no such file".toList)
        (fun _ => QueryOutcome.vulns [])).1 = 1 :=
  (exit_code_one_iff (ReadResult.readErr "no such file".toList)
      (fun _ => QueryOutcome.vulns [])).mpr (Or.inl ⟨"no such file".toList, rfl⟩)

end Keystone
